import Mathlib

/-!
Verification of the Bencode decoder in `src/bencode.rs` of `torrent_rs`.

The Rust parser is embedded shallowly:

* bytes are `Nat` values (every buffer byte is `< 256`, but the parser never
  depends on that bound);
* Rust's `HashMap<String, Bencode>` is modelled as an association list whose
  keys are the UTF-8 bytes of the Rust `String`, updated by `insertKV`, which
  has the replace-or-append semantics of `HashMap::insert`;
* `isize` / `usize` are modelled as `Int` / `Nat` together with the explicit
  64-bit range checks performed by `str::parse`;
* a Rust panic (out-of-bounds slice index, or the `panic!` in the catch-all
  match arm) is a distinguished `Res.panicked` outcome, while an `anyhow`
  error returned with `?` or `bail!` is `Res.err` carrying the parser state;
* the recursion of `Parser::parse` is driven by a fuel parameter; the public
  `Parser.parse` supplies `2 * data.length + 2` fuel, which dominates the
  number of recursive entries (each unit of fuel spent corresponds to at most
  two consumed input bytes plus the initial call).
-/

set_option maxHeartbeats 1600000

/-- The `Bencode` enum of `src/bencode.rs`.  `Dictionary` stores the
`HashMap<String, Bencode>` as an association list of UTF-8 key bytes and
values, `Integer` stores the `isize`, `Bytes` the raw `Vec<u8>`. -/
inductive Bencode where
  | Dictionary (entries : List (List Nat × Bencode))
  | List (items : List Bencode)
  | Integer (n : Int)
  | Bytes (bs : List Nat)

/-- Kinds of `anyhow` errors that `Parser::parse` returns with `?` or
`bail!`: a `FromUtf8Error` from `String::from_utf8`, a `ParseIntError` from
`str::parse`, or the `bail!("key is not a string! ...")` carrying the
offending decoded key. -/
inductive PErr where
  | fromUtf8Error
  | parseIntError
  | keyNotString (key : Bencode)

/-- Kinds of Rust panics the parser can hit: a bounds-checked slice index
out of range (in `peek` or `previous`), or the `panic!("Unknwon symbol ...")`
in the catch-all arm, carrying the offending byte. -/
inductive PanicKind where
  | indexOutOfBounds
  | unknownSymbol (b : Nat)
deriving DecidableEq

/-- The `Parser` struct: the owned input buffer and the cursor. -/
structure Parser where
  data : List Nat
  current : Nat
deriving DecidableEq

/-- Outcome of running a parsing step: `ok` and `err` carry the parser state
after the call (the Rust `Parser` outlives an `Err` return), `panicked`
aborts the process, and `outOfFuel` is the artifact of the fuel-driven
embedding of the recursion. -/
inductive Res (α : Type) where
  | ok (a : α) (s : Parser)
  | err (e : PErr) (s : Parser)
  | panicked (k : PanicKind)
  | outOfFuel

/-- True when a byte is a UTF-8 continuation byte (`0x80..=0xBF`). -/
def isCont (b : Nat) : Bool := 128 ≤ b && b ≤ 191

/-- RFC 3629 UTF-8 validation as a byte-per-step state machine: `pend` is
the number of pending continuation bytes, `lo`/`hi` the allowed range for
the next byte when `pend > 0` (the range of the first continuation byte
depends on the leading byte; later ones must be `0x80..=0xBF`). -/
def utf8Go : Nat → Nat → Nat → List Nat → Bool
  | 0, _, _, [] => true
  | 0, _, _, b :: rest =>
    if b < 128 then utf8Go 0 0 0 rest
    else if 194 ≤ b && b ≤ 223 then utf8Go 1 128 191 rest
    else if b = 224 then utf8Go 2 160 191 rest
    else if 225 ≤ b && b ≤ 236 then utf8Go 2 128 191 rest
    else if b = 237 then utf8Go 2 128 159 rest
    else if 238 ≤ b && b ≤ 239 then utf8Go 2 128 191 rest
    else if b = 240 then utf8Go 3 144 191 rest
    else if 241 ≤ b && b ≤ 243 then utf8Go 3 128 191 rest
    else if b = 244 then utf8Go 3 128 143 rest
    else false
  | _ + 1, _, _, [] => false
  | pend + 1, lo, hi, b :: rest =>
    if lo ≤ b && b ≤ hi then utf8Go pend 128 191 rest else false

/-- RFC 3629 byte-level validity of a UTF-8 byte sequence, the check done by
`String::from_utf8`. -/
def validUtf8 (s : List Nat) : Bool := utf8Go 0 0 0 s

/-- `String::from_utf8` on the byte level: validate, and on success keep the
bytes (a Rust `String` is exactly its UTF-8 bytes). -/
def string_from_utf8 (bs : List Nat) : Option (List Nat) :=
  if validUtf8 bs then some bs else none

/-- Big-endian decimal accumulation used by `str::parse`; fails on the first
byte that is not an ASCII digit. -/
def digitsGo : List Nat → Nat → Option Nat
  | [], acc => some acc
  | b :: r, acc => if 48 ≤ b && b ≤ 57 then digitsGo r (acc * 10 + (b - 48)) else none

/-- Digit-sequence value: `none` on an empty sequence or a non-digit byte. -/
def digitsToNat : List Nat → Option Nat
  | [] => none
  | b :: r => digitsGo (b :: r) 0

/-- Largest `isize` on the 64-bit platforms the crate targets. -/
def ISIZE_MAX : Int := 2 ^ 63 - 1

/-- Smallest `isize` on the 64-bit platforms the crate targets. -/
def ISIZE_MIN : Int := -(2 ^ 63)

/-- Largest `usize` on the 64-bit platforms the crate targets. -/
def USIZE_MAX : Nat := 2 ^ 64 - 1

/-- `str::parse::<isize>`: optional leading `+`/`-` sign, then one or more
ASCII digits, with the 64-bit overflow check. -/
def parse_isize (s : List Nat) : Option Int :=
  match s with
  | [] => none
  | b :: rest =>
    if b = 45 then
      match digitsToNat rest with
      | some n => if ISIZE_MIN ≤ -(n : Int) then some (-(n : Int)) else none
      | none => none
    else if b = 43 then
      match digitsToNat rest with
      | some n => if (n : Int) ≤ ISIZE_MAX then some ((n : Int)) else none
      | none => none
    else
      match digitsToNat (b :: rest) with
      | some n => if (n : Int) ≤ ISIZE_MAX then some ((n : Int)) else none
      | none => none

/-- `str::parse::<usize>`: optional leading `+` sign, then one or more ASCII
digits, with the 64-bit overflow check. -/
def parse_usize (s : List Nat) : Option Nat :=
  match s with
  | [] => none
  | b :: rest =>
    if b = 43 then
      match digitsToNat rest with
      | some n => if n ≤ USIZE_MAX then some n else none
      | none => none
    else
      match digitsToNat (b :: rest) with
      | some n => if n ≤ USIZE_MAX then some n else none
      | none => none

/-- `HashMap::insert` on the association-list model: if the key is present
its value is replaced, otherwise the pair is appended. -/
def insertKV : List (List Nat × Bencode) → List Nat → Bencode → List (List Nat × Bencode)
  | [], k, v => [(k, v)]
  | e :: t, k, v => if e.1 = k then (k, v) :: t else e :: insertKV t k v

/-- `Parser::is_at_end`: note the source compares with `>` (not `>=`), so the
cursor sitting one past the last byte still counts as not at the end. -/
def Parser.is_at_end (p : Parser) : Bool := p.data.length < p.current

/-- `Parser::peek`: `self.data[self.current]`, a bounds-checked index; `none`
models the out-of-bounds panic. -/
def Parser.peek (p : Parser) : Option Nat := p.data[p.current]?

/-- `Parser::previous`: `self.data[self.current - 1]`; `none` models both the
`usize` underflow at cursor 0 and the out-of-bounds panic. -/
def Parser.previous (p : Parser) : Option Nat :=
  if p.current = 0 then none else p.data[p.current - 1]?

/-- The guarded `self.current += 1` at the start of `Parser::advance`. -/
def Parser.bump (p : Parser) : Parser :=
  if p.is_at_end then p else { p with current := p.current + 1 }

/-- `Parser::advance`: increment the cursor unless `is_at_end`, then return
`previous()`. -/
def Parser.advance (p : Parser) : Option (Nat × Parser) :=
  match p.bump.previous with
  | some b => some (b, p.bump)
  | none => none

/-- `Parser::advance_exact`: `size` repetitions of `advance`, collecting the
returned bytes. -/
def Parser.advance_exact (p : Parser) (size : Nat) : Option (List Nat × Parser) :=
  match size with
  | 0 => some ([], p)
  | n + 1 =>
    match p.advance with
    | none => none
    | some (b, p1) =>
      match p1.advance_exact n with
      | none => none
      | some (bs, p2) => some (b :: bs, p2)

/-- `Parser::advance_to`: push `advance()` results while `peek()` differs
from `c`, then consume the delimiter without returning it. -/
def Parser.advance_to (p : Parser) (c : Nat) : Option (List Nat × Parser) :=
  match hpk : p.peek with
  | none => none
  | some b =>
    if b = c then
      match p.advance with
      | none => none
      | some (_, p1) => some ([], p1)
    else
      match hadv : p.advance with
      | none => none
      | some (b1, p1) =>
        match p1.advance_to c with
        | none => none
        | some (bs, p2) => some (b1 :: bs, p2)
termination_by p.data.length - p.current
decreasing_by
  simp only [Parser.peek] at hpk
  have hlt : p.current < p.data.length := by
    by_contra hc
    rw [List.getElem?_eq_none (by omega)] at hpk
    cases hpk
  have hend : p.is_at_end = false := by
    simp only [Parser.is_at_end, decide_eq_false_iff_not]
    omega
  simp only [Parser.advance, Parser.bump, hend, Bool.false_eq_true, if_false,
    Parser.previous, Nat.add_sub_cancel, Nat.succ_ne_zero, if_false, hpk] at hadv
  cases hadv
  simp only []
  omega

mutual

/-- `Parser::parse`, fueled.  Dispatch on `peek()`: `'d'` (100) dictionary,
`'l'` (108) list, `'i'` (105) integer, ASCII digit byte-string, anything else
the `panic!` arm. -/
def parseF (fuel : Nat) (p : Parser) : Res Bencode :=
  match fuel with
  | 0 => .outOfFuel
  | f + 1 =>
    match p.peek with
    | none => .panicked .indexOutOfBounds
    | some b =>
      if b = 100 then
        match p.advance with
        | none => .panicked .indexOutOfBounds
        | some (_, p1) => dictLoopF f [] p1
      else if b = 108 then
        match p.advance with
        | none => .panicked .indexOutOfBounds
        | some (_, p1) => listLoopF f [] p1
      else if b = 105 then
        match p.advance with
        | none => .panicked .indexOutOfBounds
        | some (_, p1) =>
          match p1.advance_to 101 with
          | none => .panicked .indexOutOfBounds
          | some (bs, p2) =>
            match string_from_utf8 bs with
            | none => .err .fromUtf8Error p2
            | some s =>
              match parse_isize s with
              | none => .err .parseIntError p2
              | some n => .ok (.Integer n) p2
      else if 48 ≤ b && b ≤ 57 then
        match p.advance_to 58 with
        | none => .panicked .indexOutOfBounds
        | some (bs, p1) =>
          match string_from_utf8 bs with
          | none => .err .fromUtf8Error p1
          | some s =>
            match parse_usize s with
            | none => .err .parseIntError p1
            | some size =>
              match p1.advance_exact size with
              | none => .panicked .indexOutOfBounds
              | some (content, p2) => .ok (.Bytes content) p2
      else .panicked (.unknownSymbol b)

/-- The dictionary loop of `Parser::parse`: while `peek()` is not `'e'`
(101), parse a key, parse a value, require the key to be `Bytes`, decode it
as UTF-8 and insert.  Note that the source returns without consuming the
terminator. -/
def dictLoopF (fuel : Nat) (dict : List (List Nat × Bencode)) (p : Parser) : Res Bencode :=
  match fuel with
  | 0 => .outOfFuel
  | f + 1 =>
    match p.peek with
    | none => .panicked .indexOutOfBounds
    | some b =>
      if b = 101 then .ok (.Dictionary dict) p
      else
        match parseF f p with
        | .ok key p1 =>
          match parseF f p1 with
          | .ok value p2 =>
            match key with
            | .Bytes kbs =>
              match string_from_utf8 kbs with
              | none => .err .fromUtf8Error p2
              | some ks => dictLoopF f (insertKV dict ks value) p2
            | _ => .err (.keyNotString key) p2
          | r => r
        | r => r

/-- The list loop of `Parser::parse`: while `peek()` is not `'e'` (101),
parse a value and push it.  Note that the source returns without consuming
the terminator. -/
def listLoopF (fuel : Nat) (list : List Bencode) (p : Parser) : Res Bencode :=
  match fuel with
  | 0 => .outOfFuel
  | f + 1 =>
    match p.peek with
    | none => .panicked .indexOutOfBounds
    | some b =>
      if b = 101 then .ok (.List list) p
      else
        match parseF f p with
        | .ok v p1 => listLoopF f (list ++ [v]) p1
        | r => r

end

/-- `Parser::new`. -/
def Parser.new (data : List Nat) : Parser := ⟨data, 0⟩

/-- The public `Parser::parse` entry point: run the fueled recursion with
fuel that dominates every possible number of recursive entries for this
buffer. -/
def Parser.parse (p : Parser) : Res Bencode := parseF (2 * p.data.length + 2) p

/-- Fueled digit extraction: one decimal digit per division by ten. -/
def decNatGo : Nat → Nat → List Nat
  | 0, _ => []
  | fuel + 1, n => if n = 0 then [] else decNatGo fuel (n / 10) ++ [n % 10 + 48]

/-- ASCII decimal digits of a natural number, most significant first, as
produced by Rust's `Display` for unsigned integers (structural fuel form:
the number itself bounds the digit count). -/
def decNat (n : Nat) : List Nat :=
  if n = 0 then [48] else decNatGo n n

/-- ASCII decimal representation of a signed integer, as produced by Rust's
`Display` for `isize`: a `-` sign (45) followed by the digits of the
magnitude when negative. -/
def decInt (n : Int) : List Nat :=
  if n < 0 then 45 :: decNat n.natAbs else decNat n.toNat

/-- Bencode encoding of an integer: `i`, decimal digits, `e`. -/
def encInt (n : Int) : List Nat := 105 :: decInt n ++ [101]

/-- Bencode encoding of a byte string: decimal length, `:`, payload. -/
def encBytes (bs : List Nat) : List Nat := decNat bs.length ++ [58] ++ bs

/-- Concatenated Bencode encoding of dictionary pairs, each key encoded as a
byte string and each value with the scalar encoder picked by its variant. -/
def encPairs : List (List Nat × Bencode) → List Nat
  | [] => []
  | (k, v) :: t =>
    encBytes k ++
      (match v with
        | .Integer n => encInt n
        | .Bytes bs => encBytes bs
        | _ => []) ++ encPairs t

/-- Values whose encoding and decoding stay inside the scalar fragment: an
integer in the `isize` range or a byte string of `usize` length. -/
def scalarOK : Bencode → Prop
  | .Integer n => ISIZE_MIN ≤ n ∧ n ≤ ISIZE_MAX
  | .Bytes bs => bs.length ≤ USIZE_MAX
  | _ => False

/-- The scalar encoder used inside `encPairs`, exposed for statements. -/
def encScalar : Bencode → List Nat
  | .Integer n => encInt n
  | .Bytes bs => encBytes bs
  | _ => []

/-- Folding a pair sequence into the dictionary model with
`HashMap::insert` semantics, first pair first. -/
def insertAll (ps : List (List Nat × Bencode)) : List (List Nat × Bencode) :=
  ps.foldl (fun m q => insertKV m q.1 q.2) []

/-- Lookup in the association-list dictionary model. -/
def lookupKV : List (List Nat × Bencode) → List Nat → Option Bencode
  | [], _ => none
  | e :: t, k => if e.1 = k then some e.2 else lookupKV t k

/-- Value of the last pair with the given key in an encoded pair sequence:
the first match when scanning from the back. -/
def lastOcc (ps : List (List Nat × Bencode)) (k : List Nat) : Option Bencode :=
  lookupKV ps.reverse k

/-- The first of two options that is populated. -/
def firstSome (a b : Option Bencode) : Option Bencode :=
  match a with
  | some x => some x
  | none => b

/-- The parser state left behind by a `parse` call that returned to its
caller, successfully or with an error; panics and fuel exhaustion leave no
observable state. -/
def resState : Res Bencode → Option Parser
  | .ok _ s => some s
  | .err _ s => some s
  | _ => none

/-- A successful `peek` means the cursor is strictly inside the buffer. -/
theorem peek_lt {p : Parser} {b : Nat} (h : p.peek = some b) :
    p.current < p.data.length := by
  by_contra hc
  rw [Parser.peek, List.getElem?_eq_none (by omega)] at h
  cases h

/-- `peek` at a split buffer returns the first byte after the position. -/
theorem peek_at (pre rest : List Nat) (b : Nat) :
    (Parser.mk (pre ++ b :: rest) pre.length).peek = some b := by
  simp [Parser.peek, List.getElem?_append_right (Nat.le_refl pre.length)]

/-- When `peek` succeeds, `advance` returns the peeked byte and moves the
cursor one step right. -/
theorem advance_of_peek {p : Parser} {b : Nat} (h : p.peek = some b) :
    p.advance = some (b, ⟨p.data, p.current + 1⟩) := by
  have hlt : p.current < p.data.length := peek_lt h
  have hend : p.is_at_end = false := by
    simp only [Parser.is_at_end, decide_eq_false_iff_not]
    omega
  have hbump : p.bump = ⟨p.data, p.current + 1⟩ := by
    simp [Parser.bump, hend]
  rw [Parser.peek] at h
  simp [Parser.advance, hbump, Parser.previous, h]

/-- `advance` at a split buffer. -/
theorem advance_at (pre rest : List Nat) (b : Nat) :
    (Parser.mk (pre ++ b :: rest) pre.length).advance
      = some (b, ⟨pre ++ b :: rest, pre.length + 1⟩) :=
  advance_of_peek (peek_at pre rest b)

/-- One unfolding step of `advance_to` when `peek` succeeds. -/
theorem advance_to_step {p : Parser} {b : Nat} (c : Nat) (h : p.peek = some b) :
    p.advance_to c =
      if b = c then some ([], ⟨p.data, p.current + 1⟩)
      else
        match (Parser.mk p.data (p.current + 1)).advance_to c with
        | none => none
        | some (bs, p2) => some (b :: bs, p2) := by
  rw [Parser.advance_to.eq_def]
  split
  · rename_i heq
    rw [h] at heq
    cases heq
  · rename_i b1 heq
    rw [h] at heq
    injection heq with hb
    subst hb
    by_cases hbc : b = c
    · simp [hbc, advance_of_peek h]
    · rw [if_neg hbc, if_neg hbc]
      split
      · rename_i heq2
        rw [advance_of_peek h] at heq2
        cases heq2
      · rename_i b2 p3 heq2
        rw [advance_of_peek h] at heq2
        injection heq2 with h3
        injection h3 with h4 h5
        subst h4
        subst h5
        rfl

/-- `advance_to` when `peek` is out of bounds panics. -/
theorem advance_to_none {p : Parser} (c : Nat) (h : p.peek = none) :
    p.advance_to c = none := by
  rw [Parser.advance_to.eq_def]
  split
  · rfl
  · rename_i b1 heq
    rw [h] at heq
    cases heq

/-- `advance_to` at a split buffer captures exactly the segment before the
first delimiter and consumes the delimiter. -/
theorem advance_to_at (seg : List Nat) (c : Nat) (hc : c ∉ seg) :
    ∀ pre suf : List Nat,
      (Parser.mk (pre ++ seg ++ c :: suf) pre.length).advance_to c
        = some (seg, ⟨pre ++ seg ++ c :: suf, pre.length + seg.length + 1⟩) := by
  induction seg with
  | nil =>
    intro pre suf
    rw [advance_to_step c (by simpa using peek_at pre suf c)]
    simp
  | cons x xs ih =>
    intro pre suf
    have hxc : x ≠ c := by
      intro hx
      exact hc (hx ▸ List.mem_cons_self x xs)
    have hpk : (Parser.mk (pre ++ (x :: xs) ++ c :: suf) pre.length).peek = some x := by
      simpa using peek_at pre (xs ++ c :: suf) x
    rw [advance_to_step c hpk]
    rw [if_neg hxc]
    have hrec := ih (fun h => hc (List.mem_cons_of_mem x h)) (pre ++ [x]) suf
    have harr : (pre ++ [x]) ++ xs ++ c :: suf = pre ++ (x :: xs) ++ c :: suf := by
      simp
    rw [harr] at hrec
    have hlen : (pre ++ [x]).length = pre.length + 1 := by simp
    rw [hlen] at hrec
    rw [hrec]
    simp
    omega

/-- `advance_exact` at a split buffer reads exactly the segment. -/
theorem advance_exact_at (seg : List Nat) :
    ∀ pre suf : List Nat,
      (Parser.mk (pre ++ seg ++ suf) pre.length).advance_exact seg.length
        = some (seg, ⟨pre ++ seg ++ suf, pre.length + seg.length⟩) := by
  induction seg with
  | nil =>
    intro pre suf
    simp [Parser.advance_exact]
  | cons x xs ih =>
    intro pre suf
    have hadv : (Parser.mk (pre ++ (x :: xs) ++ suf) pre.length).advance
        = some (x, ⟨pre ++ (x :: xs) ++ suf, pre.length + 1⟩) := by
      simpa using advance_at pre (xs ++ suf) x
    have hrec := ih (pre ++ [x]) suf
    have harr : (pre ++ [x]) ++ xs ++ suf = pre ++ (x :: xs) ++ suf := by simp
    have hlen : (pre ++ [x]).length = pre.length + 1 := by simp
    rw [harr, hlen] at hrec
    show (Parser.mk (pre ++ (x :: xs) ++ suf) pre.length).advance_exact (xs.length + 1) = _
    have harith : pre.length + 1 + xs.length = pre.length + (x :: xs).length := by
      simp only [List.length_cons]
      omega
    simp only [Parser.advance_exact, hadv, hrec, harith]

/-- The fueled digit extraction agrees with `Nat.digits` whenever the fuel
covers the number. -/
theorem decNatGo_eq : ∀ fuel n, n ≤ fuel →
    decNatGo fuel n = (Nat.digits 10 n).reverse.map (fun d => d + 48) := by
  intro fuel
  induction fuel with
  | zero =>
    intro n hn
    have : n = 0 := by omega
    subst this
    simp [decNatGo]
  | succ f ih =>
    intro n hn
    by_cases hz : n = 0
    · subst hz
      simp [decNatGo]
    · have hlt : n / 10 < n := Nat.div_lt_self (by omega) (by norm_num)
      have hdig : Nat.digits 10 n = n % 10 :: Nat.digits 10 (n / 10) :=
        Nat.digits_def' (by norm_num) (by omega)

      simp only [decNatGo, hz, if_false, hdig, List.reverse_cons, List.map_append,
        List.map_cons, List.map_nil]
      rw [ih (n / 10) (by omega)]

/-- The decimal representation as a mapped `Nat.digits` list. -/
theorem decNat_eq (n : Nat) :
    decNat n = if n = 0 then [48] else (Nat.digits 10 n).reverse.map (fun d => d + 48) := by
  unfold decNat
  by_cases hz : n = 0
  · simp [hz]
  · rw [if_neg hz, if_neg hz]
    exact decNatGo_eq n n (Nat.le_refl n)

/-- Every byte of the decimal representation of a natural number is an
ASCII digit. -/
theorem decNat_mem (n : Nat) : ∀ d ∈ decNat n, 48 ≤ d ∧ d ≤ 57 := by
  intro d hd
  rw [decNat_eq] at hd
  split at hd
  · simp at hd
    omega
  · simp only [List.mem_map, List.mem_reverse] at hd
    obtain ⟨a, ha, rfl⟩ := hd
    have : a < 10 := Nat.digits_lt_base (by norm_num) ha
    omega

/-- The decimal representation is never empty. -/
theorem decNat_ne_nil (n : Nat) : decNat n ≠ [] := by
  rw [decNat_eq]
  by_cases hn : n = 0
  · simp [hn]
  · rw [if_neg hn]
    simp only [ne_eq, List.map_eq_nil_iff, List.reverse_eq_nil_iff]
    exact Nat.digits_ne_nil_iff_ne_zero.mpr hn

/-- Accumulating ASCII digits is folding their values in base 10. -/
theorem digitsGo_map (ds : List Nat) :
    ∀ acc, (∀ d ∈ ds, d < 10) →
      digitsGo (ds.map (fun d => d + 48)) acc
        = some (ds.foldl (fun a d => a * 10 + d) acc) := by
  induction ds with
  | nil =>
    intro acc h
    simp [digitsGo]
  | cons d t ih =>
    intro acc h
    have hd : d < 10 := h d (by simp)
    have hcond : (48 ≤ d + 48 && d + 48 ≤ 57) = true := by
      simp only [Bool.and_eq_true, decide_eq_true_eq]
      omega
    simp only [List.map_cons, digitsGo, hcond, if_true, Nat.add_sub_cancel]
    exact ih _ (fun x hx => h x (List.mem_cons_of_mem _ hx))

/-- Folding digit values in base 10 computes the positional value. -/
theorem foldl_base10 (ds : List Nat) :
    ∀ acc, ds.foldl (fun a d => a * 10 + d) acc
      = acc * 10 ^ ds.length + Nat.ofDigits 10 ds.reverse := by
  induction ds with
  | nil =>
    intro acc
    simp [Nat.ofDigits]
  | cons d t ih =>
    intro acc
    simp only [List.foldl_cons, ih, List.reverse_cons, Nat.ofDigits_append,
      List.length_reverse, List.length_cons, Nat.ofDigits_singleton, pow_succ]
    ring

/-- Decoding the decimal representation recovers the number. -/
theorem digitsToNat_decNat (n : Nat) : digitsToNat (decNat n) = some n := by
  by_cases hn : n = 0
  · subst hn
    rfl
  · have hds : ∀ d ∈ (Nat.digits 10 n).reverse, d < 10 :=
      fun d hd => Nat.digits_lt_base (by norm_num) (List.mem_reverse.mp hd)
    have h1 := digitsGo_map ((Nat.digits 10 n).reverse) 0 hds
    have h2 := foldl_base10 ((Nat.digits 10 n).reverse) 0
    rw [List.reverse_reverse, Nat.ofDigits_digits, Nat.zero_mul, Nat.zero_add] at h2
    have hdef : decNat n = (Nat.digits 10 n).reverse.map (fun d => d + 48) := by
      rw [decNat_eq, if_neg hn]
    cases hc : (Nat.digits 10 n).reverse.map (fun d => d + 48) with
    | nil =>
      rw [hc] at hdef
      exact absurd hdef (decNat_ne_nil n)
    | cons x t =>
      rw [hdef, hc]
      show digitsGo (x :: t) 0 = some n
      rw [← hc, h1, h2]

/-- `str::parse::<usize>` round-trips the decimal representation. -/
theorem parse_usize_decNat {n : Nat} (h : n ≤ USIZE_MAX) :
    parse_usize (decNat n) = some n := by
  cases hc : decNat n with
  | nil => exact absurd hc (decNat_ne_nil n)
  | cons x t =>
    have hx : 48 ≤ x ∧ x ≤ 57 := decNat_mem n x (by rw [hc]; exact List.mem_cons_self x t)
    have h43 : ¬ x = 43 := by omega
    have hdt : digitsToNat (x :: t) = some n := by
      rw [← hc]
      exact digitsToNat_decNat n
    simp [parse_usize, h43, hdt, h]

/-- `str::parse::<isize>` round-trips the decimal representation of every
in-range integer. -/
theorem parse_isize_decInt {n : Int} (h1 : ISIZE_MIN ≤ n) (h2 : n ≤ ISIZE_MAX) :
    parse_isize (decInt n) = some n := by
  by_cases hneg : n < 0
  · have habs : ((n.natAbs : Int)) = -n := Int.ofNat_natAbs_of_nonpos (le_of_lt hneg)
    have hd : digitsToNat (decNat n.natAbs) = some n.natAbs := digitsToNat_decNat _
    unfold decInt
    rw [if_pos hneg]
    simp [parse_isize, hd, habs, neg_neg, h1]
  · have hnn : 0 ≤ n := not_lt.mp hneg
    have htn : ((n.toNat : Int)) = n := Int.toNat_of_nonneg hnn
    have hd : digitsToNat (decNat n.toNat) = some n.toNat := digitsToNat_decNat _
    unfold decInt
    rw [if_neg hneg]
    cases hc : decNat n.toNat with
    | nil => exact absurd hc (decNat_ne_nil _)
    | cons x t =>
      have hx : 48 ≤ x ∧ x ≤ 57 :=
        decNat_mem n.toNat x (by rw [hc]; exact List.mem_cons_self x t)
      have h45 : ¬ x = 45 := by omega
      have h43 : ¬ x = 43 := by omega
      rw [hc] at hd
      simp only [parse_isize, h45, h43, if_false, hd, htn]
      rw [if_pos h2]

/-- A list of ASCII bytes is valid UTF-8. -/
theorem validUtf8_ascii : ∀ {s : List Nat}, (∀ b ∈ s, b < 128) → validUtf8 s = true := by
  intro s
  induction s with
  | nil =>
    intro
    rfl
  | cons b t ih =>
    intro h
    have hb : b < 128 := h b (by simp)
    have hstep : validUtf8 (b :: t) = validUtf8 t := by
      show utf8Go 0 0 0 (b :: t) = utf8Go 0 0 0 t
      simp only [utf8Go]
      rw [if_pos hb]
    rw [hstep]
    exact ih (fun x hx => h x (List.mem_cons_of_mem _ hx))

/-- Decimal digits of an integer: digits plus possibly a leading minus. -/
theorem decInt_mem (n : Int) : ∀ d ∈ decInt n, (48 ≤ d ∧ d ≤ 57) ∨ d = 45 := by
  intro d hd
  unfold decInt at hd
  split at hd
  · rcases List.mem_cons.mp hd with h | h
    · right
      exact h
    · left
      exact decNat_mem _ d h
  · left
    exact decNat_mem _ d hd

/-- The terminator `'e'` (101) never occurs inside an integer's digits. -/
theorem decInt_not_101 (n : Int) : 101 ∉ decInt n := by
  intro h
  rcases decInt_mem n 101 h with h1 | h1 <;> omega

/-- Integer digit bytes are ASCII. -/
theorem decInt_ascii (n : Int) : ∀ d ∈ decInt n, d < 128 := by
  intro d hd
  rcases decInt_mem n d hd with h | h <;> omega

/-- The delimiter `':'` (58) never occurs inside a decimal length. -/
theorem decNat_not_58 (n : Nat) : 58 ∉ decNat n := by
  intro h
  have := decNat_mem n 58 h
  omega

/-- Length digit bytes are ASCII. -/
theorem decNat_ascii (n : Nat) : ∀ d ∈ decNat n, d < 128 := by
  intro d hd
  have := decNat_mem n d hd
  omega

/-- `string_from_utf8` accepts any ASCII byte list unchanged. -/
theorem string_from_utf8_ascii {s : List Nat} (h : ∀ b ∈ s, b < 128) :
    string_from_utf8 s = some s := by
  unfold string_from_utf8
  rw [validUtf8_ascii h]
  rfl

/-- `string_from_utf8` accepts any valid byte list unchanged. -/
theorem string_from_utf8_of_valid {s : List Nat} (h : validUtf8 s = true) :
    string_from_utf8 s = some s := by
  unfold string_from_utf8
  rw [h]
  rfl

/-- Parsing at an in-range integer encoding returns that integer and leaves
the cursor right after the final `'e'`. -/
theorem parseF_int_at (n : Int) (h1 : ISIZE_MIN ≤ n) (h2 : n ≤ ISIZE_MAX)
    (fuel : Nat) (pre suf : List Nat) :
    parseF (fuel + 1) (Parser.mk (pre ++ encInt n ++ suf) pre.length)
      = .ok (.Integer n) ⟨pre ++ encInt n ++ suf, pre.length + (encInt n).length⟩ := by
  have hshape : pre ++ encInt n ++ suf = pre ++ 105 :: (decInt n ++ 101 :: suf) := by
    simp [encInt]
  rw [hshape]
  have hpk : (Parser.mk (pre ++ 105 :: (decInt n ++ 101 :: suf)) pre.length).peek = some 105 :=
    peek_at pre _ 105
  have hadv := advance_of_peek hpk
  have hato := advance_to_at (decInt n) 101 (decInt_not_101 n) (pre ++ [105]) suf
  have harr : (pre ++ [105]) ++ decInt n ++ 101 :: suf = pre ++ 105 :: (decInt n ++ 101 :: suf) := by
    simp
  have hlen : (pre ++ [105]).length = pre.length + 1 := by simp
  rw [harr, hlen] at hato
  have hutf := string_from_utf8_ascii (decInt_ascii n)
  have hiz := parse_isize_decInt h1 h2
  simp only [parseF, hpk, hadv, hato, hutf, hiz]
  norm_num [encInt]
  omega

/-- Parsing at a byte-string encoding returns exactly the payload and leaves
the cursor right after it. -/
theorem parseF_bytes_at (bs : List Nat) (hb : bs.length ≤ USIZE_MAX)
    (fuel : Nat) (pre suf : List Nat) :
    parseF (fuel + 1) (Parser.mk (pre ++ encBytes bs ++ suf) pre.length)
      = .ok (.Bytes bs) ⟨pre ++ encBytes bs ++ suf, pre.length + (encBytes bs).length⟩ := by
  cases hc : decNat bs.length with
  | nil => exact absurd hc (decNat_ne_nil _)
  | cons x t =>
    have hx : 48 ≤ x ∧ x ≤ 57 :=
      decNat_mem _ x (by rw [hc]; exact List.mem_cons_self x t)
    have hshape : pre ++ encBytes bs ++ suf = pre ++ x :: (t ++ 58 :: (bs ++ suf)) := by
      simp [encBytes, hc]
    rw [hshape]
    have hpk : (Parser.mk (pre ++ x :: (t ++ 58 :: (bs ++ suf))) pre.length).peek = some x :=
      peek_at pre _ x
    have hato := advance_to_at (decNat bs.length) 58 (decNat_not_58 _) pre (bs ++ suf)
    have harr : pre ++ decNat bs.length ++ 58 :: (bs ++ suf)
        = pre ++ x :: (t ++ 58 :: (bs ++ suf)) := by
      simp [hc]
    rw [harr] at hato
    have hutf := string_from_utf8_ascii (decNat_ascii bs.length)
    have husz := parse_usize_decNat hb
    have hexact := advance_exact_at bs (pre ++ decNat bs.length ++ [58]) suf
    have harr2 : (pre ++ decNat bs.length ++ [58]) ++ bs ++ suf
        = pre ++ x :: (t ++ 58 :: (bs ++ suf)) := by
      simp [hc]
    have hlen2 : (pre ++ decNat bs.length ++ [58]).length
        = pre.length + (decNat bs.length).length + 1 := by
      simp only [List.length_append, List.length_cons, List.length_nil]
    rw [harr2, hlen2] at hexact
    have h100 : ¬ x = 100 := by omega
    have h108 : ¬ x = 108 := by omega
    have h105 : ¬ x = 105 := by omega
    have hdig : (48 ≤ x && x ≤ 57) = true := by
      simp only [Bool.and_eq_true, decide_eq_true_eq]
      omega
    have hfin : pre.length + (decNat bs.length).length + 1 + bs.length
        = pre.length + (encBytes bs).length := by
      simp only [encBytes, List.length_append, List.length_cons, List.length_nil]
      omega
    simp only [parseF, hpk, h100, h108, h105, hdig, if_false, if_true, hato, hutf, husz,
      hexact, hfin]

/-- Parsing at the encoding of any scalar value returns that value and
advances past its encoding. -/
theorem parseF_scalar_at (v : Bencode) (hv : scalarOK v) (fuel : Nat) (pre suf : List Nat) :
    parseF (fuel + 1) (Parser.mk (pre ++ encScalar v ++ suf) pre.length)
      = .ok v ⟨pre ++ encScalar v ++ suf, pre.length + (encScalar v).length⟩ := by
  cases v with
  | Integer n =>
    obtain ⟨h1, h2⟩ := hv
    exact parseF_int_at n h1 h2 fuel pre suf
  | Bytes bs =>
    exact parseF_bytes_at bs hv fuel pre suf
  | Dictionary es => cases hv
  | List l => cases hv

/-- Unfolding of `encPairs` through the scalar encoder. -/
theorem encPairs_cons (k : List Nat) (v : Bencode) (t : List (List Nat × Bencode)) :
    encPairs ((k, v) :: t) = encBytes k ++ encScalar v ++ encPairs t := by
  cases v <;> rfl

/-- Each encoded pair contributes at least one byte. -/
theorem encPairs_ge (ps : List (List Nat × Bencode)) : ps.length ≤ (encPairs ps).length := by
  induction ps with
  | nil => simp [encPairs]
  | cons q t ih =>
    obtain ⟨k, v⟩ := q
    rw [encPairs_cons]
    simp only [List.length_append, List.length_cons, encBytes]
    omega

/-- The dictionary loop of `parse` over a sequence of encoded scalar pairs
folds them into the accumulator with `HashMap::insert` semantics and stops at
the terminator without consuming it. -/
theorem dictLoopF_pairs (ps : List (List Nat × Bencode)) :
    ∀ fuel acc pre suf,
      (∀ q ∈ ps, validUtf8 q.1 = true ∧ q.1.length ≤ USIZE_MAX ∧ scalarOK q.2) →
      ps.length + 1 ≤ fuel →
      dictLoopF fuel acc (Parser.mk (pre ++ encPairs ps ++ 101 :: suf) pre.length)
        = .ok (.Dictionary (ps.foldl (fun m q => insertKV m q.1 q.2) acc))
            ⟨pre ++ encPairs ps ++ 101 :: suf, pre.length + (encPairs ps).length⟩ := by
  induction ps with
  | nil =>
    intro fuel acc pre suf hq hfuel
    cases fuel with
    | zero => omega
    | succ f =>
      have hpk : (Parser.mk (pre ++ 101 :: suf) pre.length).peek = some 101 :=
        peek_at pre suf 101
      have hsh : pre ++ encPairs [] ++ 101 :: suf = pre ++ 101 :: suf := by
        simp [encPairs]
      rw [hsh]
      simp only [dictLoopF, hpk]
      simp [encPairs]
  | cons q t ih =>
    intro fuel acc pre suf hq hfuel
    obtain ⟨k, v⟩ := q
    have hkv := hq (k, v) (List.mem_cons_self _ _)
    have hkutf : validUtf8 k = true := hkv.1
    have hklen : k.length ≤ USIZE_MAX := hkv.2.1
    have hvsc : scalarOK v := hkv.2.2
    cases fuel with
    | zero => omega
    | succ f =>
      obtain ⟨f2, hf⟩ : ∃ f2, f = f2 + 1 := by
        refine ⟨f - 1, ?_⟩
        simp only [List.length_cons] at hfuel
        omega
      set B := pre ++ encPairs ((k, v) :: t) ++ 101 :: suf with hB
      cases hc : decNat k.length with
      | nil => exact absurd hc (decNat_ne_nil _)
      | cons x xt =>
        have hx : 48 ≤ x ∧ x ≤ 57 :=
          decNat_mem _ x (by rw [hc]; exact List.mem_cons_self x xt)
        have hBshape : B = pre ++ x :: (xt ++ 58 :: (k ++ (encScalar v ++ (encPairs t ++ 101 :: suf)))) := by
          rw [hB, encPairs_cons]
          simp [encBytes, hc]
        have hpk : (Parser.mk B pre.length).peek = some x := by
          rw [hBshape]
          exact peek_at pre _ x
        have hne101 : ¬ x = 101 := by omega
        have hkey := parseF_bytes_at k hklen f2 pre (encScalar v ++ (encPairs t ++ 101 :: suf))
        have harrk : pre ++ encBytes k ++ (encScalar v ++ (encPairs t ++ 101 :: suf)) = B := by
          rw [hB, encPairs_cons]
          simp
        rw [harrk, ← hf] at hkey
        have hval := parseF_scalar_at v hvsc f2 (pre ++ encBytes k) (encPairs t ++ 101 :: suf)
        have harrv : (pre ++ encBytes k) ++ encScalar v ++ (encPairs t ++ 101 :: suf) = B := by
          rw [hB, encPairs_cons]
          simp
        have hlenk : (pre ++ encBytes k).length = pre.length + (encBytes k).length :=
          List.length_append _ _
        rw [harrv, hlenk, ← hf] at hval
        have hrec := ih f (insertKV acc k v) (pre ++ encBytes k ++ encScalar v) suf
          (fun q hqmem => hq q (List.mem_cons_of_mem _ hqmem))
          (by simp only [List.length_cons] at hfuel; omega)
        have harrr : (pre ++ encBytes k ++ encScalar v) ++ encPairs t ++ 101 :: suf = B := by
          rw [hB, encPairs_cons]
          simp
        have hlenr : (pre ++ encBytes k ++ encScalar v).length
            = pre.length + (encBytes k).length + (encScalar v).length := by
          simp only [List.length_append]
        rw [harrr, hlenr] at hrec
        have hutfk : string_from_utf8 k = some k := string_from_utf8_of_valid hkutf
        have hfold : ((k, v) :: t).foldl (fun m q => insertKV m q.1 q.2) acc
            = t.foldl (fun m q => insertKV m q.1 q.2) (insertKV acc k v) := rfl
        have hposfin : pre.length + (encBytes k).length + (encScalar v).length
              + (encPairs t).length
            = pre.length + (encPairs ((k, v) :: t)).length := by
          rw [encPairs_cons]
          simp only [List.length_append]
          omega
        simp only [dictLoopF, hpk]
        rw [if_neg hne101]
        simp only [hkey, hval, hutfk, hrec, hfold, hposfin]

/-- `Parser::parse` on a dictionary of scalar pairs returns the insertion
fold of the pairs and leaves the cursor on the terminator. -/
theorem parse_dict_pairs (ps : List (List Nat × Bencode))
    (hq : ∀ q ∈ ps, validUtf8 q.1 = true ∧ q.1.length ≤ USIZE_MAX ∧ scalarOK q.2) :
    Parser.parse (Parser.new (100 :: (encPairs ps ++ [101])))
      = .ok (.Dictionary (insertAll ps))
          ⟨100 :: (encPairs ps ++ [101]), 1 + (encPairs ps).length⟩ := by
  set B := 100 :: (encPairs ps ++ [101]) with hBdef
  have hfe : 2 * B.length + 2 = (2 * B.length + 1) + 1 := rfl
  have hpk : (Parser.mk B 0).peek = some 100 := by
    rw [hBdef]
    simp [Parser.peek]
  have hadv := advance_of_peek hpk
  have hfuel : ps.length + 1 ≤ 2 * B.length + 1 := by
    have h1 := encPairs_ge ps
    have h2 : B.length = (encPairs ps).length + 2 := by
      rw [hBdef]
      simp
    omega
  have hloop := dictLoopF_pairs ps (2 * B.length + 1) [] [100] [] hq hfuel
  have hsh : [100] ++ encPairs ps ++ 101 :: ([] : List Nat) = B := by
    rw [hBdef]
    simp
  have hlen1 : ([100] : List Nat).length = 1 := rfl
  rw [hsh, hlen1] at hloop
  show parseF (2 * B.length + 2) (Parser.mk B 0) = _
  rw [hfe]
  simp [parseF, hpk, hadv, hloop, insertAll]

/-- `Parser::parse` at the start of an in-range integer encoding. -/
theorem parse_int_top (n : Int) (h1 : ISIZE_MIN ≤ n) (h2 : n ≤ ISIZE_MAX) (suf : List Nat) :
    Parser.parse (Parser.new (encInt n ++ suf))
      = .ok (.Integer n) ⟨encInt n ++ suf, (encInt n).length⟩ := by
  set B := encInt n ++ suf with hBdef
  have hfe : 2 * B.length + 2 = (2 * B.length + 1) + 1 := rfl
  have h := parseF_int_at n h1 h2 (2 * B.length + 1) [] suf
  simp only [List.nil_append, List.length_nil, Nat.zero_add] at h
  rw [← hBdef] at h
  show parseF (2 * B.length + 2) (Parser.mk B 0) = _
  rw [hfe]
  exact h

/-- `Parser::parse` at the start of a byte-string encoding. -/
theorem parse_bytes_top (bs : List Nat) (hb : bs.length ≤ USIZE_MAX) (suf : List Nat) :
    Parser.parse (Parser.new (encBytes bs ++ suf))
      = .ok (.Bytes bs) ⟨encBytes bs ++ suf, (encBytes bs).length⟩ := by
  set B := encBytes bs ++ suf with hBdef
  have hfe : 2 * B.length + 2 = (2 * B.length + 1) + 1 := rfl
  have h := parseF_bytes_at bs hb (2 * B.length + 1) [] suf
  simp only [List.nil_append, List.length_nil, Nat.zero_add] at h
  rw [← hBdef] at h
  show parseF (2 * B.length + 2) (Parser.mk B 0) = _
  rw [hfe]
  exact h

/-- `Parser::parse` on `i<span>e` when the span is not a well-formed
in-range integer literal: the error of `String::from_utf8` or of
`str::parse::<isize>` is returned, with the cursor already past the `'e'`. -/
theorem parse_int_fail (s suf : List Nat) (hno : 101 ∉ s)
    (hbad : parse_isize s = none ∨ validUtf8 s = false) :
    Parser.parse (Parser.new (105 :: (s ++ 101 :: suf)))
      = .err (if validUtf8 s then .parseIntError else .fromUtf8Error)
          ⟨105 :: (s ++ 101 :: suf), s.length + 2⟩ := by
  set B := 105 :: (s ++ 101 :: suf) with hBdef
  have hfe : 2 * B.length + 2 = (2 * B.length + 1) + 1 := rfl
  have hpk : (Parser.mk B 0).peek = some 105 := by
    rw [hBdef]
    simp [Parser.peek]
  have hadv := advance_of_peek hpk
  have hato := advance_to_at s 101 hno [105] suf
  have harr : [105] ++ s ++ 101 :: suf = B := by
    rw [hBdef]
    simp
  have hlen : ([105] : List Nat).length = 1 := rfl
  rw [harr, hlen] at hato
  have hpos : 1 + s.length + 1 = s.length + 2 := by omega
  show parseF (2 * B.length + 2) (Parser.mk B 0) = _
  rw [hfe]
  by_cases hv : validUtf8 s = true
  · have hpe : parse_isize s = none := by
      rcases hbad with h | h
      · exact h
      · rw [hv] at h
        cases h
    have hutf : string_from_utf8 s = some s := string_from_utf8_of_valid hv
    simp [parseF, hpk, hadv, hato, hutf, hpe, hv, hpos]
  · have hvf : validUtf8 s = false := by
      revert hv
      cases validUtf8 s <;> simp
    have hutf : string_from_utf8 s = none := by
      unfold string_from_utf8
      rw [hvf]
      simp
    simp [parseF, hpk, hadv, hato, hutf, hvf, hpos]

/-- A dictionary whose first key is an integer, followed by a byte-string
value, makes `parse` return the `bail!` error carrying the decoded key:
the value is parsed first, then the key check fails. -/
theorem parse_int_key_dict (n : Int) (h1 : ISIZE_MIN ≤ n) (h2 : n ≤ ISIZE_MAX)
    (bs : List Nat) (hbs : bs.length ≤ USIZE_MAX) (suf : List Nat) :
    Parser.parse (Parser.new (100 :: (encInt n ++ (encBytes bs ++ suf))))
      = .err (.keyNotString (.Integer n))
          ⟨100 :: (encInt n ++ (encBytes bs ++ suf)),
            1 + (encInt n).length + (encBytes bs).length⟩ := by
  set B := 100 :: (encInt n ++ (encBytes bs ++ suf)) with hBdef
  have hfe : 2 * B.length + 2 = (2 * B.length + 1) + 1 := rfl
  have hpk : (Parser.mk B 0).peek = some 100 := by
    rw [hBdef]
    simp [Parser.peek]
  have hadv := advance_of_peek hpk
  have hBlen1 : 1 ≤ B.length := by
    rw [hBdef]
    simp
  obtain ⟨g, hg⟩ : ∃ g, 2 * B.length + 1 = g + 1 + 1 := ⟨2 * B.length - 1, by omega⟩
  have hpk2 : (Parser.mk B 1).peek = some 105 := by
    have : B = [100] ++ 105 :: (decInt n ++ 101 :: (encBytes bs ++ suf)) := by
      rw [hBdef]
      simp [encInt]
    rw [this]
    have := peek_at [100] (decInt n ++ 101 :: (encBytes bs ++ suf)) 105
    simpa using this
  have hne101 : (105 : Nat) ≠ 101 := by omega
  have hkey := parseF_int_at n h1 h2 g [100] (encBytes bs ++ suf)
  have harrk : [100] ++ encInt n ++ (encBytes bs ++ suf) = B := by
    rw [hBdef]
    simp
  have hlenk : ([100] : List Nat).length = 1 := rfl
  rw [harrk, hlenk] at hkey
  have hval := parseF_bytes_at bs hbs g ([100] ++ encInt n) suf
  have harrv : ([100] ++ encInt n) ++ encBytes bs ++ suf = B := by
    rw [hBdef]
    simp
  have hlenv : ([100] ++ encInt n).length = 1 + (encInt n).length := by
    simp only [List.length_append, List.length_cons, List.length_nil]
  rw [harrv, hlenv] at hval
  show parseF (2 * B.length + 2) (Parser.mk B 0) = _
  rw [hfe]
  simp only [parseF, hpk, hadv, Nat.zero_add]
  rw [hg]
  simp only [dictLoopF, hpk2]
  rw [if_neg hne101]
  simp only [hkey, hval]
  rw [if_pos trivial]

/-- Looking up the key just inserted finds the new value. -/
theorem lookupKV_insertKV_self (m : List (List Nat × Bencode)) (k : List Nat) (v : Bencode) :
    lookupKV (insertKV m k v) k = some v := by
  induction m with
  | nil => simp [insertKV, lookupKV]
  | cons e t ih =>
    by_cases he : e.1 = k
    · simp [insertKV, he, lookupKV]
    · simp [insertKV, he, lookupKV, ih]

/-- Inserting one key does not disturb lookups of another. -/
theorem lookupKV_insertKV_other (m : List (List Nat × Bencode)) (k : List Nat) (v : Bencode)
    (k2 : List Nat) (hne : ¬ k = k2) :
    lookupKV (insertKV m k v) k2 = lookupKV m k2 := by
  induction m with
  | nil => simp [insertKV, lookupKV, hne]
  | cons e t ih =>
    by_cases he : e.1 = k
    · have he2 : ¬ e.1 = k2 := by
        rw [he]
        exact hne
      simp [insertKV, he, lookupKV, hne, he2]
    · have hne2 : ¬ k2 = k := fun hcon => hne hcon.symm
      by_cases he2 : e.1 = k2
      · simp [insertKV, he, lookupKV, he2, hne2]
      · simp [insertKV, he, lookupKV, he2, ih]

/-- Lookup distributes over append, preferring the first list. -/
theorem lookupKV_append (l1 l2 : List (List Nat × Bencode)) (k : List Nat) :
    lookupKV (l1 ++ l2) k = firstSome (lookupKV l1 k) (lookupKV l2 k) := by
  induction l1 with
  | nil => simp [lookupKV, firstSome]
  | cons e t ih =>
    by_cases he : e.1 = k
    · simp [lookupKV, he, firstSome]
    · simp [lookupKV, he, firstSome, ih]

/-- Folding pairs into an accumulator with `HashMap::insert` semantics:
a lookup sees the last occurrence in the pair sequence, or falls back to the
accumulator. -/
theorem lookupKV_foldl_insert (ps : List (List Nat × Bencode)) :
    ∀ acc k, lookupKV (ps.foldl (fun m q => insertKV m q.1 q.2) acc) k
      = firstSome (lookupKV ps.reverse k) (lookupKV acc k) := by
  induction ps with
  | nil =>
    intro acc k
    simp [lookupKV, firstSome]
  | cons q t ih =>
    intro acc k
    simp only [List.foldl_cons, List.reverse_cons]
    rw [ih, lookupKV_append]
    cases hres : lookupKV t.reverse k with
    | some w => simp [firstSome]
    | none =>
      simp only [firstSome]
      by_cases hq : q.1 = k
      · subst hq
        simp [lookupKV_insertKV_self, lookupKV]
      · rw [lookupKV_insertKV_other acc q.1 q.2 k hq]
        simp [lookupKV, hq]

/-- The dictionary built by the decoder maps every key to the value of its
last occurrence in the input. -/
theorem lookupKV_insertAll (ps : List (List Nat × Bencode)) (k : List Nat) :
    lookupKV (insertAll ps) k = lastOcc ps k := by
  unfold insertAll lastOcc
  rw [lookupKV_foldl_insert]
  cases h : lookupKV ps.reverse k <;> simp [firstSome, lookupKV]

/-- A key occurring in the pair list has a last occurrence. -/
theorem lastOcc_isSome_of_mem (ps : List (List Nat × Bencode)) (k : List Nat)
    (h : ∃ q ∈ ps, q.1 = k) : (lastOcc ps k).isSome = true := by
  unfold lastOcc
  obtain ⟨q, hq, hk⟩ := h
  have hq2 : q ∈ ps.reverse := List.mem_reverse.mpr hq
  have key : ∀ l : List (List Nat × Bencode), q ∈ l → (lookupKV l k).isSome = true := by
    intro l hmem
    induction l with
    | nil => cases hmem
    | cons e t ih =>
      rcases List.mem_cons.mp hmem with rfl | hmem2
      · simp [lookupKV, hk]
      · by_cases he : e.1 = k
        · simp [lookupKV, he]
        · have hstep : lookupKV (e :: t) k = lookupKV t k := by
            simp [lookupKV, he]
          rw [hstep]
          exact ih hmem2
  exact key ps.reverse hq2

/-- `bump` keeps the buffer and never moves the cursor left. -/
theorem bump_frame (p : Parser) : (p.bump).data = p.data ∧ p.current ≤ (p.bump).current := by
  unfold Parser.bump
  split
  · exact ⟨rfl, Nat.le_refl _⟩
  · exact ⟨rfl, Nat.le_succ _⟩

/-- Composition of two frame facts. -/
theorem frame_trans {p q r : Parser} (h1 : q.data = p.data ∧ p.current ≤ q.current)
    (h2 : r.data = q.data ∧ q.current ≤ r.current) :
    r.data = p.data ∧ p.current ≤ r.current :=
  ⟨h2.1.trans h1.1, Nat.le_trans h1.2 h2.2⟩

/-- `advance` keeps the buffer and never moves the cursor left. -/
theorem advance_frame {p p1 : Parser} {b : Nat} (h : p.advance = some (b, p1)) :
    p1.data = p.data ∧ p.current ≤ p1.current := by
  simp only [Parser.advance] at h
  split at h
  · injection h with h2
    injection h2 with h3 h4
    subst h4
    exact bump_frame p
  · cases h

/-- `advance_to` keeps the buffer and never moves the cursor left. -/
theorem advance_to_frame (c : Nat) :
    ∀ m p bs p1, p.data.length - p.current ≤ m →
      Parser.advance_to p c = some (bs, p1) →
      p1.data = p.data ∧ p.current ≤ p1.current := by
  intro m
  induction m with
  | zero =>
    intro p bs p1 hm h
    have hpk : p.peek = none := by
      unfold Parser.peek
      exact List.getElem?_eq_none (by omega)
    rw [advance_to_none c hpk] at h
    cases h
  | succ mm ih =>
    intro p bs p1 hm h
    cases hpk : p.peek with
    | none =>
      rw [advance_to_none c hpk] at h
      cases h
    | some b =>
      have hlt := peek_lt hpk
      rw [advance_to_step c hpk] at h
      by_cases hbc : b = c
      · rw [if_pos hbc] at h
        injection h with h2
        injection h2 with h3 h4
        subst h4
        exact ⟨rfl, Nat.le_succ _⟩
      · rw [if_neg hbc] at h
        cases hrec : (Parser.mk p.data (p.current + 1)).advance_to c with
        | none =>
          simp only [hrec] at h
          cases h
        | some pair =>
          obtain ⟨bs2, p2⟩ := pair
          simp only [hrec] at h
          injection h with h2
          injection h2 with h3 h4
          have hframe := ih (Parser.mk p.data (p.current + 1)) bs2 p2 (by simp; omega) hrec
          rw [← h4]
          exact ⟨hframe.1, Nat.le_trans (Nat.le_succ _) hframe.2⟩

/-- `advance_exact` keeps the buffer and never moves the cursor left. -/
theorem advance_exact_frame :
    ∀ size (p : Parser) bs p1, p.advance_exact size = some (bs, p1) →
      p1.data = p.data ∧ p.current ≤ p1.current := by
  intro size
  induction size with
  | zero =>
    intro p bs p1 h
    simp only [Parser.advance_exact] at h
    injection h with h2
    injection h2 with h3 h4
    subst h4
    exact ⟨rfl, Nat.le_refl _⟩
  | succ n ih =>
    intro p bs p1 h
    simp only [Parser.advance_exact] at h
    cases hadv : p.advance with
    | none =>
      simp only [hadv] at h
      cases h
    | some pr =>
      obtain ⟨b, q⟩ := pr
      simp only [hadv] at h
      cases hrec : q.advance_exact n with
      | none =>
        simp only [hrec] at h
        cases h
      | some pr2 =>
        obtain ⟨bs2, p2⟩ := pr2
        simp only [hrec] at h
        injection h with h2
        injection h2 with h3 h4
        rw [← h4]
        exact frame_trans (advance_frame hadv) (ih q bs2 p2 hrec)

/-- Every call into the fueled parser — the top dispatch, the dictionary
loop or the list loop — that returns to its caller (with a value or a
returned error) leaves the buffer unchanged and never moves the cursor
left. -/
theorem parseF_frame (fuel : Nat) :
    (∀ p s, resState (parseF fuel p) = some s → s.data = p.data ∧ p.current ≤ s.current)
    ∧ (∀ acc p s, resState (dictLoopF fuel acc p) = some s → s.data = p.data ∧ p.current ≤ s.current)
    ∧ (∀ acc p s, resState (listLoopF fuel acc p) = some s → s.data = p.data ∧ p.current ≤ s.current) := by
  induction fuel with
  | zero =>
    refine ⟨?_, ?_, ?_⟩
    · intro p s h
      simp [parseF, resState] at h
    · intro acc p s h
      simp [dictLoopF, resState] at h
    · intro acc p s h
      simp [listLoopF, resState] at h
  | succ f ih =>
    obtain ⟨ihP, ihD, ihL⟩ := ih
    refine ⟨?_, ?_, ?_⟩
    · intro p s h
      simp only [parseF] at h
      cases hpk : p.peek with
      | none =>
        simp only [hpk, resState] at h
        cases h
      | some b =>
        simp only [hpk] at h
        by_cases h100 : b = 100
        · rw [if_pos h100] at h
          cases hadv : p.advance with
          | none =>
                   simp only [hadv, resState] at h
                   cases h
          | some pr =>
            obtain ⟨b1, p1⟩ := pr
            simp only [hadv] at h
            exact frame_trans (advance_frame hadv) (ihD [] p1 s h)
        · rw [if_neg h100] at h
          by_cases h108 : b = 108
          · rw [if_pos h108] at h
            cases hadv : p.advance with
            | none =>
                     simp only [hadv, resState] at h
                     cases h
            | some pr =>
              obtain ⟨b1, p1⟩ := pr
              simp only [hadv] at h
              exact frame_trans (advance_frame hadv) (ihL [] p1 s h)
          · rw [if_neg h108] at h
            by_cases h105 : b = 105
            · rw [if_pos h105] at h
              cases hadv : p.advance with
              | none =>
                       simp only [hadv, resState] at h
                       cases h
              | some pr =>
                obtain ⟨b1, p1⟩ := pr
                simp only [hadv] at h
                cases hato : p1.advance_to 101 with
                | none =>
                         simp only [hato, resState] at h
                         cases h
                | some pr2 =>
                  obtain ⟨bs2, p2⟩ := pr2
                  simp only [hato] at h
                  have hchain := frame_trans (advance_frame hadv)
                    (advance_to_frame 101 (p1.data.length - p1.current) p1 bs2 p2
                      (Nat.le_refl _) hato)
                  cases hutf : string_from_utf8 bs2 with
                  | none =>
                    simp only [hutf, resState] at h
                    injection h with h2
                    rw [← h2]
                    exact hchain
                  | some s2 =>
                    simp only [hutf] at h
                    cases hpi : parse_isize s2 with
                    | none =>
                      simp only [hpi, resState] at h
                      injection h with h2
                      rw [← h2]
                      exact hchain
                    | some nn =>
                      simp only [hpi, resState] at h
                      injection h with h2
                      rw [← h2]
                      exact hchain
            · rw [if_neg h105] at h
              by_cases hdig : (48 ≤ b && b ≤ 57) = true
              · rw [if_pos hdig] at h
                cases hato : p.advance_to 58 with
                | none =>
                         simp only [hato, resState] at h
                         cases h
                | some pr =>
                  obtain ⟨bs1, p1⟩ := pr
                  simp only [hato] at h
                  have hato_frame := advance_to_frame 58 (p.data.length - p.current) p bs1 p1
                    (Nat.le_refl _) hato
                  cases hutf : string_from_utf8 bs1 with
                  | none =>
                    simp only [hutf, resState] at h
                    injection h with h2
                    rw [← h2]
                    exact hato_frame
                  | some s2 =>
                    simp only [hutf] at h
                    cases hpu : parse_usize s2 with
                    | none =>
                      simp only [hpu, resState] at h
                      injection h with h2
                      rw [← h2]
                      exact hato_frame
                    | some size =>
                      simp only [hpu] at h
                      cases hex : p1.advance_exact size with
                      | none =>
                               simp only [hex, resState] at h
                               cases h
                      | some pr2 =>
                        obtain ⟨content, p2⟩ := pr2
                        simp only [hex, resState] at h
                        injection h with h2
                        rw [← h2]
                        exact frame_trans hato_frame (advance_exact_frame size p1 content p2 hex)
              · rw [if_neg hdig] at h
                simp only [resState] at h
                cases h
    · intro acc p s h
      simp only [dictLoopF] at h
      cases hpk : p.peek with
      | none =>
               simp only [hpk, resState] at h
               cases h
      | some b =>
        simp only [hpk] at h
        by_cases hb : b = 101
        · rw [if_pos hb] at h
          simp only [resState] at h
          injection h with h2
          rw [← h2]
          exact ⟨rfl, Nat.le_refl _⟩
        · rw [if_neg hb] at h
          cases hk : parseF f p with
          | ok key p1 =>
            simp only [hk] at h
            have hf1 : p1.data = p.data ∧ p.current ≤ p1.current :=
              ihP p p1 (by rw [hk]; rfl)
            cases hv : parseF f p1 with
            | ok value p2 =>
              simp only [hv] at h
              have hf2 : p2.data = p1.data ∧ p1.current ≤ p2.current :=
                ihP p1 p2 (by rw [hv]; rfl)
              have hf12 := frame_trans hf1 hf2
              cases key with
              | Bytes kbs =>
                cases hutf : string_from_utf8 kbs with
                | none =>
                  simp only [hutf, resState] at h
                  injection h with h2
                  rw [← h2]
                  exact hf12
                | some ks =>
                  simp only [hutf] at h
                  exact frame_trans hf12 (ihD (insertKV acc ks value) p2 s h)
              | Dictionary es =>
                simp only [resState] at h
                injection h with h2
                rw [← h2]
                exact hf12
              | List l =>
                simp only [resState] at h
                injection h with h2
                rw [← h2]
                exact hf12
              | Integer nn =>
                simp only [resState] at h
                injection h with h2
                rw [← h2]
                exact hf12
            | err e p2 =>
              simp only [hv, resState] at h
              injection h with h2
              rw [← h2]
              exact frame_trans hf1 (ihP p1 p2 (by rw [hv]; rfl))
            | panicked k =>
                           simp only [hv, resState] at h
                           cases h
            | outOfFuel =>
                          simp only [hv, resState] at h
                          cases h
          | err e p1 =>
            simp only [hk, resState] at h
            injection h with h2
            rw [← h2]
            exact ihP p p1 (by rw [hk]; rfl)
          | panicked k =>
                         simp only [hk, resState] at h
                         cases h
          | outOfFuel =>
                        simp only [hk, resState] at h
                        cases h
    · intro acc p s h
      simp only [listLoopF] at h
      cases hpk : p.peek with
      | none =>
               simp only [hpk, resState] at h
               cases h
      | some b =>
        simp only [hpk] at h
        by_cases hb : b = 101
        · rw [if_pos hb] at h
          simp only [resState] at h
          injection h with h2
          rw [← h2]
          exact ⟨rfl, Nat.le_refl _⟩
        · rw [if_neg hb] at h
          cases hk : parseF f p with
          | ok v p1 =>
            simp only [hk] at h
            exact frame_trans (ihP p p1 (by rw [hk]; rfl)) (ihL (acc ++ [v]) p1 s h)
          | err e p1 =>
            simp only [hk, resState] at h
            injection h with h2
            rw [← h2]
            exact ihP p p1 (by rw [hk]; rfl)
          | panicked k =>
                         simp only [hk, resState] at h
                         cases h
          | outOfFuel =>
                        simp only [hk, resState] at h
                        cases h

/-- Frame property of the public entry point. -/
theorem parse_frame (p : Parser) (s : Parser) (h : resState (Parser.parse p) = some s) :
    s.data = p.data ∧ p.current ≤ s.current :=
  (parseF_frame (2 * p.data.length + 2)).1 p s h

/-- One step of the dispatch: a `'d'` byte enters the dictionary loop. -/
theorem parseF_d (f : Nat) (p : Parser) (hpk : p.peek = some 100) :
    parseF (f + 1) p = dictLoopF f [] ⟨p.data, p.current + 1⟩ := by
  simp only [parseF, hpk, advance_of_peek hpk]
  rw [if_pos trivial]

/-- One step of the dispatch: an `'l'` byte enters the list loop. -/
theorem parseF_l (f : Nat) (p : Parser) (hpk : p.peek = some 108) :
    parseF (f + 1) p = listLoopF f [] ⟨p.data, p.current + 1⟩ := by
  simp only [parseF, hpk, advance_of_peek hpk]
  norm_num

/-- The dictionary loop returns (without consuming the byte) at `'e'`. -/
theorem dictLoopF_term (f : Nat) (acc : List (List Nat × Bencode)) (p : Parser)
    (hpk : p.peek = some 101) :
    dictLoopF (f + 1) acc p = .ok (.Dictionary acc) p := by
  simp only [dictLoopF, hpk]
  rw [if_pos trivial]

/-- The list loop returns (without consuming the byte) at `'e'`. -/
theorem listLoopF_term (f : Nat) (acc : List Bencode) (p : Parser)
    (hpk : p.peek = some 101) :
    listLoopF (f + 1) acc p = .ok (.List acc) p := by
  simp only [listLoopF, hpk]
  rw [if_pos trivial]

/-- One iteration of the dictionary loop whose key and value parses both
succeed with a valid UTF-8 byte-string key. -/
theorem dictLoopF_step_ok (f : Nat) (acc : List (List Nat × Bencode)) (p : Parser)
    (b : Nat) (hpk : p.peek = some b) (hne : ¬ b = 101)
    (kbs : List Nat) (p1 : Parser) (hk : parseF f p = .ok (.Bytes kbs) p1)
    (value : Bencode) (p2 : Parser) (hv : parseF f p1 = .ok value p2)
    (hutf : validUtf8 kbs = true) :
    dictLoopF (f + 1) acc p = dictLoopF f (insertKV acc kbs value) p2 := by
  simp only [dictLoopF, hpk]
  rw [if_neg hne]
  simp only [hk, hv, string_from_utf8_of_valid hutf]

/-- C1: the claim says that after `parse` returns a decoded dictionary or
list the closing `'e'` has been consumed (cursor one past it).  The code
returns from both container loops without the final `advance()`: on `de`
(and on `le`) the cursor stops at index 1, on the terminator itself, not at
index 2. -/
theorem C1_terminator_unconsumed :
    Parser.parse (Parser.new [100, 101]) = Res.ok (Bencode.Dictionary []) ⟨[100, 101], 1⟩
    ∧ Parser.parse (Parser.new [108, 101]) = Res.ok (Bencode.List []) ⟨[108, 101], 1⟩ :=
  ⟨rfl, rfl⟩

/-- C2: the claim says `l<enc(v1)>..<enc(vk)>e` decodes to `List([v1..vk])`
for values of any variant.  On `llei0ee` (= `l` ++ enc(List []) ++
enc(Integer 0) ++ `e`) the unconsumed terminator of the inner list makes the
outer loop exit early: the code returns `List([List([])])`, dropping
`Integer 0`. -/
theorem C2_nested_list_misparsed :
    Parser.parse (Parser.new [108, 108, 101, 105, 48, 101, 101])
      = Res.ok (Bencode.List [Bencode.List []]) ⟨[108, 108, 101, 105, 48, 101, 101], 2⟩
    ∧ Bencode.List [Bencode.List []] ≠ Bencode.List [Bencode.List [], Bencode.Integer 0] :=
  ⟨rfl, by simp⟩

/-- C3: the claim says `d<enc(k1)><enc(v1)>...e` with distinct keys decodes
to a dictionary with exactly those pairs, for values of any variant.  On
`d1:ale1:bi0ee` (pairs ("a", List []) and ("b", Integer 0)) the unconsumed
terminator of the inner list ends the dictionary loop after the first pair:
the result has no binding for key "b" (byte 98). -/
theorem C3_dict_container_value_drops_pairs :
    Parser.parse (Parser.new [100, 49, 58, 97, 108, 101, 49, 58, 98, 105, 48, 101, 101])
      = Res.ok (Bencode.Dictionary [([97], Bencode.List [])])
          ⟨[100, 49, 58, 97, 108, 101, 49, 58, 98, 105, 48, 101, 101], 5⟩
    ∧ lookupKV [([97], Bencode.List [])] [98] = none := by
  constructor
  · set B := [100, 49, 58, 97, 108, 101, 49, 58, 98, 105, 48, 101, 101] with hB
    have hkey : parseF 26 (Parser.mk B 1) = Res.ok (Bencode.Bytes [97]) ⟨B, 4⟩ := by
      have := parseF_bytes_at [97] (by decide) 25 [100] [108, 101, 49, 58, 98, 105, 48, 101, 101]
      simpa [encBytes, decNat, decNatGo, hB] using this
    have hpk5 : (Parser.mk B 5).peek = some 101 := by simp [Parser.peek, hB]
    have hpk4 : (Parser.mk B 4).peek = some 108 := by simp [Parser.peek, hB]
    have hval : parseF 26 (Parser.mk B 4) = Res.ok (Bencode.List []) ⟨B, 5⟩ := by
      show parseF (25 + 1) (Parser.mk B 4) = _
      rw [parseF_l 25 _ hpk4]
      exact listLoopF_term 24 [] _ hpk5
    have hdict : dictLoopF 27 [] (Parser.mk B 1)
        = Res.ok (Bencode.Dictionary [([97], Bencode.List [])]) ⟨B, 5⟩ := by
      show dictLoopF (26 + 1) [] (Parser.mk B 1) = _
      have hpk1 : (Parser.mk B 1).peek = some 49 := by simp [Parser.peek, hB]
      rw [dictLoopF_step_ok 26 [] _ 49 hpk1 (by omega) [97] _ hkey _ _ hval (by decide)]
      exact dictLoopF_term 25 _ _ hpk5
    have hpk0 : (Parser.mk B 0).peek = some 100 := by simp [Parser.peek, hB]
    show parseF (27 + 1) (Parser.mk B 0) = _
    rw [parseF_d 27 _ hpk0]
    exact hdict
  · rfl

/-- C4: the claim says a truncated encoding such as `5:ab` fails cleanly
with an `UnexpectedEof` error.  The code has no such error: `advance()` at
the end of the buffer still increments the cursor (the `current > len`
bound is off by one) and `previous()` then indexes out of bounds, a panic
that aborts the process instead of returning an error. -/
theorem C4_truncated_input_panics :
    Parser.parse (Parser.new [53, 58, 97, 98]) = Res.panicked PanicKind.indexOutOfBounds := by
  have hato : (Parser.mk [53, 58, 97, 98] 0).advance_to 58
      = some ([53], ⟨[53, 58, 97, 98], 2⟩) := by
    have := advance_to_at [53] 58 (by decide) [] [97, 98]
    simpa using this
  show parseF (9 + 1) (Parser.mk [53, 58, 97, 98] 0) = _
  have hpk : (Parser.mk [53, 58, 97, 98] 0).peek = some 53 := by simp [Parser.peek]
  simp only [parseF, hpk, hato]
  rfl

/-- C5: the claim says a byte that is no marker makes `parse` return an
unrecognized-marker error to the caller.  The code instead hits
`panic!("Unknwon symbol ...")`, aborting the process; the embedding records
the panic (with the offending byte 120 = `'x'`) rather than an `err`
return. -/
theorem C5_unknown_marker_panics :
    Parser.parse (Parser.new [120]) = Res.panicked (PanicKind.unknownSymbol 120) := rfl

/-- C6 counterexample: on `d1:ale1:ai1ee` the key "a" occurs twice (values
`List []` then `Integer 1`).  The claim says parse succeeds with the key
mapped to the last occurrence, `Integer 1`; the code exits the dictionary
loop at the unconsumed terminator of `List []` and maps "a" to the FIRST
value, never parsing the second pair. -/
theorem C6_counterexample :
    Parser.parse (Parser.new [100, 49, 58, 97, 108, 101, 49, 58, 97, 105, 49, 101, 101])
      = Res.ok (Bencode.Dictionary [([97], Bencode.List [])])
          ⟨[100, 49, 58, 97, 108, 101, 49, 58, 97, 105, 49, 101, 101], 5⟩
    ∧ lookupKV [([97], Bencode.List [])] [97] = some (Bencode.List [])
    ∧ Bencode.List [] ≠ Bencode.Integer 1 := by
  refine ⟨?_, rfl, fun h => Bencode.noConfusion h⟩
  set B := [100, 49, 58, 97, 108, 101, 49, 58, 97, 105, 49, 101, 101] with hB
  have hkey : parseF 26 (Parser.mk B 1) = Res.ok (Bencode.Bytes [97]) ⟨B, 4⟩ := by
    have := parseF_bytes_at [97] (by decide) 25 [100] [108, 101, 49, 58, 97, 105, 49, 101, 101]
    simpa [encBytes, decNat, decNatGo, hB] using this
  have hpk5 : (Parser.mk B 5).peek = some 101 := by simp [Parser.peek, hB]
  have hpk4 : (Parser.mk B 4).peek = some 108 := by simp [Parser.peek, hB]
  have hval : parseF 26 (Parser.mk B 4) = Res.ok (Bencode.List []) ⟨B, 5⟩ := by
    show parseF (25 + 1) (Parser.mk B 4) = _
    rw [parseF_l 25 _ hpk4]
    exact listLoopF_term 24 [] _ hpk5
  have hdict : dictLoopF 27 [] (Parser.mk B 1)
      = Res.ok (Bencode.Dictionary [([97], Bencode.List [])]) ⟨B, 5⟩ := by
    show dictLoopF (26 + 1) [] (Parser.mk B 1) = _
    have hpk1 : (Parser.mk B 1).peek = some 49 := by simp [Parser.peek, hB]
    rw [dictLoopF_step_ok 26 [] _ 49 hpk1 (by omega) [97] _ hkey _ _ hval (by decide)]
    exact dictLoopF_term 25 _ _ hpk5
  have hpk0 : (Parser.mk B 0).peek = some 100 := by simp [Parser.peek, hB]
  show parseF (27 + 1) (Parser.mk B 0) = _
  rw [parseF_d 27 _ hpk0]
  exact hdict

/-- C6 (amended): for every dictionary encoding whose values are all
scalars (in-range integers or byte strings) and in which a UTF-8 string key
occurs more than once, `parse` succeeds and the resulting dictionary maps
that key to the value of its last occurrence (last-write-wins via
`HashMap::insert`); the cursor is left on the unconsumed terminator. -/
theorem C6_last_write_wins (ps : List (List Nat × Bencode))
    (hq : ∀ q ∈ ps, validUtf8 q.1 = true ∧ q.1.length ≤ USIZE_MAX ∧ scalarOK q.2)
    (k : List Nat) (hocc : 2 ≤ (ps.filter (fun q => q.1 == k)).length) :
    Parser.parse (Parser.new (100 :: (encPairs ps ++ [101])))
      = Res.ok (Bencode.Dictionary (insertAll ps))
          ⟨100 :: (encPairs ps ++ [101]), 1 + (encPairs ps).length⟩
    ∧ lookupKV (insertAll ps) k = lastOcc ps k
    ∧ (lastOcc ps k).isSome = true := by
  refine ⟨parse_dict_pairs ps hq, lookupKV_insertAll ps k, ?_⟩
  apply lastOcc_isSome_of_mem
  have hne : ps.filter (fun q => q.1 == k) ≠ [] := by
    intro hcon
    rw [hcon] at hocc
    simp at hocc
  obtain ⟨q, hqmem⟩ := List.exists_mem_of_ne_nil _ hne
  have hsplit := List.mem_filter.mp hqmem
  exact ⟨q, hsplit.1, by simpa using hsplit.2⟩

/-- C6 witness: `d3:fooi1e3:fooi2ee` decodes to a dictionary mapping "foo"
to `Integer 2`, the last written value. -/
theorem C6_witness :
    Parser.parse (Parser.new
        [100, 51, 58, 102, 111, 111, 105, 49, 101, 51, 58, 102, 111, 111, 105, 50, 101, 101])
      = Res.ok (Bencode.Dictionary [([102, 111, 111], Bencode.Integer 2)])
          ⟨[100, 51, 58, 102, 111, 111, 105, 49, 101, 51, 58, 102, 111, 111, 105, 50, 101, 101],
            17⟩ :=
  (C6_last_write_wins
    [([102, 111, 111], Bencode.Integer 1), ([102, 111, 111], Bencode.Integer 2)]
    (by
      intro q hq
      rcases List.mem_cons.mp hq with rfl | hq2
      · exact ⟨by decide, by decide, ⟨by decide, by decide⟩⟩
      · rcases List.mem_cons.mp hq2 with rfl | hq3
        · exact ⟨by decide, by decide, ⟨by decide, by decide⟩⟩
        · cases hq3)
    [102, 111, 111] (by decide)).1

/-- C7: decoding `i<decimal(n)>e` yields `Integer n` for every `n` in the
`isize` range (the cursor ends past the `'e'`), and when the span between
`'i'` and the first `'e'` is not a well-formed in-range signed decimal
literal — including invalid UTF-8 — `parse` returns the corresponding
error to its caller. -/
theorem C7_integer_decoding :
    (∀ n : Int, ISIZE_MIN ≤ n → n ≤ ISIZE_MAX →
      Parser.parse (Parser.new (encInt n))
        = Res.ok (Bencode.Integer n) ⟨encInt n, (encInt n).length⟩)
    ∧ (∀ s : List Nat, 101 ∉ s → (parse_isize s = none ∨ validUtf8 s = false) →
      Parser.parse (Parser.new (105 :: (s ++ [101])))
        = Res.err (if validUtf8 s then .parseIntError else .fromUtf8Error)
            ⟨105 :: (s ++ [101]), s.length + 2⟩) := by
  constructor
  · intro n h1 h2
    have h := parse_int_top n h1 h2 []
    simpa using h
  · intro s hno hbad
    have h := parse_int_fail s [] hno hbad
    simpa using h

/-- C7 witness: `i-42e` decodes to `Integer (-42)`; `iae` (span `a`, not a
digit) fails with the integer-parse error. -/
theorem C7_witness :
    Parser.parse (Parser.new [105, 45, 52, 50, 101])
      = Res.ok (Bencode.Integer (-42)) ⟨[105, 45, 52, 50, 101], 5⟩
    ∧ Parser.parse (Parser.new [105, 97, 101])
      = Res.err PErr.parseIntError ⟨[105, 97, 101], 3⟩ := by
  constructor
  · have h := C7_integer_decoding.1 (-42) (by decide) (by decide)
    rw [show encInt (-42) = [105, 45, 52, 50, 101] from by decide] at h
    simpa using h
  · exact C7_integer_decoding.2 [97] (by decide) (Or.inl (by decide))

/-- C8: decoding `<decimal(N)>:<b>` for any byte sequence `b` of length `N`
(followed by anything) yields `Bytes b`, copied byte-for-byte with no UTF-8
validation of the payload. -/
theorem C8_bytes_decoding (b suf : List Nat) (hbyte : ∀ x ∈ b, x < 256)
    (hlen : b.length ≤ USIZE_MAX) :
    Parser.parse (Parser.new (decNat b.length ++ 58 :: (b ++ suf)))
      = Res.ok (Bencode.Bytes b)
          ⟨decNat b.length ++ 58 :: (b ++ suf), (decNat b.length).length + 1 + b.length⟩ := by
  have h := parse_bytes_top b hlen suf
  have harr : encBytes b ++ suf = decNat b.length ++ 58 :: (b ++ suf) := by
    simp [encBytes]
  have hlen2 : (encBytes b).length = (decNat b.length).length + 1 + b.length := by
    simp only [encBytes, List.length_append, List.length_cons, List.length_nil]
  rw [harr, hlen2] at h
  exact h

/-- C8 witness: `3:` followed by the bytes 0, 255, 101 — 255 is invalid as
UTF-8 text and 101 is the terminator byte — decodes to exactly those three
payload bytes. -/
theorem C8_witness :
    Parser.parse (Parser.new [51, 58, 0, 255, 101])
      = Res.ok (Bencode.Bytes [0, 255, 101]) ⟨[51, 58, 0, 255, 101], 5⟩ :=
  C8_bytes_decoding [0, 255, 101] [] (by decide) (by decide)

/-- C9 counterexample: `d1:alei5ei0ee` is a dictionary encoding whose
second key position holds the integer `i5e`, yet `parse` SUCCEEDS: the
unconsumed terminator of the first pair's `List []` value ends the loop
before the integer key is ever examined, so no `NonStringKey` error is
raised and the pair is silently dropped. -/
theorem C9_counterexample :
    Parser.parse (Parser.new [100, 49, 58, 97, 108, 101, 105, 53, 101, 105, 48, 101, 101])
      = Res.ok (Bencode.Dictionary [([97], Bencode.List [])])
          ⟨[100, 49, 58, 97, 108, 101, 105, 53, 101, 105, 48, 101, 101], 5⟩ := by
  set B := [100, 49, 58, 97, 108, 101, 105, 53, 101, 105, 48, 101, 101] with hB
  have hkey : parseF 26 (Parser.mk B 1) = Res.ok (Bencode.Bytes [97]) ⟨B, 4⟩ := by
    have := parseF_bytes_at [97] (by decide) 25 [100] [108, 101, 105, 53, 101, 105, 48, 101, 101]
    simpa [encBytes, decNat, decNatGo, hB] using this
  have hpk5 : (Parser.mk B 5).peek = some 101 := by simp [Parser.peek, hB]
  have hpk4 : (Parser.mk B 4).peek = some 108 := by simp [Parser.peek, hB]
  have hval : parseF 26 (Parser.mk B 4) = Res.ok (Bencode.List []) ⟨B, 5⟩ := by
    show parseF (25 + 1) (Parser.mk B 4) = _
    rw [parseF_l 25 _ hpk4]
    exact listLoopF_term 24 [] _ hpk5
  have hdict : dictLoopF 27 [] (Parser.mk B 1)
      = Res.ok (Bencode.Dictionary [([97], Bencode.List [])]) ⟨B, 5⟩ := by
    show dictLoopF (26 + 1) [] (Parser.mk B 1) = _
    have hpk1 : (Parser.mk B 1).peek = some 49 := by simp [Parser.peek, hB]
    rw [dictLoopF_step_ok 26 [] _ 49 hpk1 (by omega) [97] _ hkey _ _ hval (by decide)]
    exact dictLoopF_term 25 _ _ hpk5
  have hpk0 : (Parser.mk B 0).peek = some 100 := by simp [Parser.peek, hB]
  show parseF (27 + 1) (Parser.mk B 0) = _
  rw [parseF_d 27 _ hpk0]
  exact hdict

/-- C9 (amended): when the integer key is in the FIRST key position of a
dictionary and is followed by a byte-string value, `parse` fails with the
key-is-not-a-string error carrying the offending decoded key (note that the
value after the key is parsed before the check fires). -/
theorem C9_first_key_not_string (n : Int) (h1 : ISIZE_MIN ≤ n) (h2 : n ≤ ISIZE_MAX)
    (bs : List Nat) (hbs : bs.length ≤ USIZE_MAX) (suf : List Nat) :
    Parser.parse (Parser.new (100 :: (encInt n ++ (encBytes bs ++ suf))))
      = Res.err (PErr.keyNotString (Bencode.Integer n))
          ⟨100 :: (encInt n ++ (encBytes bs ++ suf)),
            1 + (encInt n).length + (encBytes bs).length⟩ :=
  parse_int_key_dict n h1 h2 bs hbs suf

/-- C9 witness: `di5e3:fooe` fails with the not-a-string error carrying
`Integer 5`, with the cursor after the value `3:foo`. -/
theorem C9_witness :
    Parser.parse (Parser.new [100, 105, 53, 101, 51, 58, 102, 111, 111, 101])
      = Res.err (PErr.keyNotString (Bencode.Integer 5))
          ⟨[100, 105, 53, 101, 51, 58, 102, 111, 111, 101], 9⟩ :=
  C9_first_key_not_string 5 (by decide) (by decide) [102, 111, 111] (by decide) [101]

/-- C10: every `parse` call that returns to its caller — successfully or
with an error — leaves the `data` buffer unchanged and a cursor that never
moved left of where it started; `resState` extracts the parser state of
such a returning call. -/
theorem C10_parse_frame (p : Parser) (s : Parser)
    (h : resState (Parser.parse p) = some s) :
    s.data = p.data ∧ p.current ≤ s.current :=
  parse_frame p s h

/-- C10 witness: parsing `de` returns with the same buffer and the cursor
moved from 0 to 1. -/
theorem C10_witness :
    (Parser.mk [100, 101] 1).data = (Parser.new [100, 101]).data
    ∧ (Parser.new [100, 101]).current ≤ (Parser.mk [100, 101] 1).current :=
  C10_parse_frame (Parser.new [100, 101]) (Parser.mk [100, 101] 1) rfl
